import Mathlib

/-!
Shallow embedding of the retrieval and index-catalog subsystem of
`src/code-search/database/SqliteDb.ts`.

The embedding models:
* `Retrieval.deduplicateArray` / `Retrieval.deduplicateChunks` (lines 126-149),
* `Retrieval.retrieveGit` (lines 158-208), with the TF-IDF engine
  (`TfIdfChunkSearch`, an external collaborator whose source is not part of
  the verified core) abstracted as a score-producing function parameter, and
  the source-control collaborator (`GitAction`) abstracted as parameters
  `getHistoryCommits` / `getChangeByHash`,
* `Retrieval.retrieveFts` (lines 210-231), with the full-text engine
  (`FullTextSearchCodebaseIndex.retrieve`) abstracted as a fallible function
  parameter; the embedding additionally records the calls made to the engine
  and the warnings logged, so that "never invokes the engine" and "logs a
  warning" are statable,
* `SqliteDb.get` (lines 43-57), as an explicit state-passing function over
  the static cache cell, with the filesystem (`fs.existsSync`) and the
  store opener (`sqlite.open`) abstracted as parameters; table creation is
  modelled at the level of the set of existing table names, with
  `CREATE TABLE IF NOT EXISTS` semantics.

JavaScript specifics reflected in the embedding:
* `Array.prototype.sort` is stable (ECMAScript 2019) and the comparator
  `(a, b) => results[b] - results[a]` is consistent, so the sort in
  `retrieveGit` is modelled as a stable insertion sort by descending score;
* `Array.prototype.map((score, index) => ...)` is an index-aware map;
* `String.prototype.split(" ")` splits on each single space character,
  keeping empty pieces between consecutive separators (Lean `String.splitOn`);
* TF-IDF scores are JavaScript numbers; they are modelled as rationals,
  which preserves the ordered-field comparisons the code performs.
-/

/-- A commit as consumed by `retrieveGit` (`src/types/git`): only `hash` and
`message` are read. -/
structure Commit where
  hash : String
  message : String
deriving DecidableEq, Repr, Inhabited

/-- A retrieved chunk (`src/code-search/chunk/_base/Chunk`), with the fields
`retrieveGit` populates and `deduplicateChunks` compares. -/
structure Chunk where
  language : String
  digest : String
  filepath : String
  content : String
  startLine : Nat
  endLine : Nat
  index : Nat
deriving DecidableEq, Repr, Inhabited

/-- Query parameters (`RetrievalQueryTerm`): the fields `retrieveFts` and
`retrieveGit` read. -/
structure RetrievalQueryTerm where
  query : String
  tags : List String
  n : Nat
  filterDirectory : Option String
  language : Option String
deriving DecidableEq, Repr, Inhabited

/-! ### `Retrieval.deduplicateArray` (SqliteDb.ts lines 126-139)

The source loops over the array, keeping an item iff no already-kept item
satisfies the `equal` predicate against it; `dedupGo` is that loop with the
`result` accumulator made explicit. -/

def Retrieval.dedupGo {α : Type} (equal : α → α → Bool) (result : List α) : List α → List α
  | [] => result
  | item :: rest =>
    if result.any (fun existingItem => equal existingItem item) then
      Retrieval.dedupGo equal result rest
    else
      Retrieval.dedupGo equal (result ++ [item]) rest

def Retrieval.deduplicateArray {α : Type} (array : List α) (equal : α → α → Bool) : List α :=
  Retrieval.dedupGo equal [] array

/-- The duplicate key of `deduplicateChunks` (lines 142-148): `filepath`,
`startLine` and `endLine` all equal; `digest` and `content` are not compared. -/
def chunkDupEq (a b : Chunk) : Bool :=
  a.filepath == b.filepath && a.startLine == b.startLine && a.endLine == b.endLine

def Retrieval.deduplicateChunks (chunks : List Chunk) : List Chunk :=
  Retrieval.deduplicateArray chunks chunkDupEq

/-! Helper lemmas about `dedupGo`. -/

theorem dedupGo_eq_append {α : Type} (equal : α → α → Bool) :
    ∀ (l acc : List α), ∃ t, Retrieval.dedupGo equal acc l = acc ++ t ∧ t.Sublist l := by
  intro l
  induction l with
  | nil => intro acc; exact ⟨[], by simp [Retrieval.dedupGo], List.Sublist.refl []⟩
  | cons x xs ih =>
    intro acc
    by_cases h : acc.any (fun e => equal e x) = true
    · obtain ⟨t, ht, hsub⟩ := ih acc
      exact ⟨t, by simp [Retrieval.dedupGo, h, ht], hsub.cons x⟩
    · obtain ⟨t, ht, hsub⟩ := ih (acc ++ [x])
      refine ⟨x :: t, ?_, hsub.cons₂ x⟩
      simp only [Retrieval.dedupGo, h, if_false]
      rw [ht, List.append_assoc]
      rfl

theorem subset_dedupGo {α : Type} (equal : α → α → Bool) (l acc : List α) :
    acc ⊆ Retrieval.dedupGo equal acc l := by
  obtain ⟨t, ht, _⟩ := dedupGo_eq_append equal l acc
  rw [ht]
  exact List.subset_append_left acc t

theorem dedupGo_pairwise {α : Type} (equal : α → α → Bool) :
    ∀ (l acc : List α), acc.Pairwise (fun a b => equal a b = false) →
      (Retrieval.dedupGo equal acc l).Pairwise (fun a b => equal a b = false) := by
  intro l
  induction l with
  | nil => intro acc h; exact h
  | cons x xs ih =>
    intro acc hacc
    by_cases h : acc.any (fun e => equal e x) = true
    · simpa [Retrieval.dedupGo, h] using ih acc hacc
    · simp only [Retrieval.dedupGo, h, if_false]
      refine ih (acc ++ [x]) ?_
      rw [List.pairwise_append]
      refine ⟨hacc, List.pairwise_singleton _ x, ?_⟩
      intro a ha b hb
      rw [List.mem_singleton] at hb
      subst hb
      simp only [List.any_eq_true, not_exists, not_and, Bool.not_eq_true] at h
      exact Bool.eq_false_iff.mpr fun hc => absurd hc (by simpa using h a ha)

theorem dedupGo_cover {α : Type} (equal : α → α → Bool) :
    ∀ (l acc : List α), ∀ x ∈ l,
      x ∈ Retrieval.dedupGo equal acc l ∨
        ∃ e ∈ Retrieval.dedupGo equal acc l, equal e x = true := by
  intro l
  induction l with
  | nil => intro acc x hx; exact absurd hx (List.not_mem_nil x)
  | cons y ys ih =>
    intro acc x hx
    by_cases h : acc.any (fun e => equal e y) = true
    · simp only [Retrieval.dedupGo, h, if_true]
      rcases List.mem_cons.mp hx with hxy | hxs
      · subst hxy
        rw [List.any_eq_true] at h
        obtain ⟨e, he, heq⟩ := h
        exact Or.inr ⟨e, subset_dedupGo equal ys acc he, by simpa using heq⟩
      · exact ih acc x hxs
    · simp only [Retrieval.dedupGo, h, if_false]
      rcases List.mem_cons.mp hx with hxy | hxs
      · subst hxy
        exact Or.inl (subset_dedupGo equal ys (acc ++ [x]) (by simp))
      · exact ih (acc ++ [y]) x hxs

theorem dedupGo_of_pairwise {α : Type} (equal : α → α → Bool) :
    ∀ (l acc : List α), (acc ++ l).Pairwise (fun a b => equal a b = false) →
      Retrieval.dedupGo equal acc l = acc ++ l := by
  intro l
  induction l with
  | nil => intro acc _; simp [Retrieval.dedupGo]
  | cons x xs ih =>
    intro acc hp
    have hnot : acc.any (fun e => equal e x) = false := by
      rw [List.any_eq_false]
      intro e he
      have := (List.pairwise_append.mp hp).2.2 e he x (List.mem_cons_self x xs)
      simpa using this
    simp only [Retrieval.dedupGo, hnot, Bool.false_eq_true, if_false]
    have hp' : ((acc ++ [x]) ++ xs).Pairwise (fun a b => equal a b = false) := by
      rw [List.append_assoc]
      simpa using hp
    rw [ih (acc ++ [x]) hp', List.append_assoc]
    rfl

theorem deduplicateArray_pairwise {α : Type} (equal : α → α → Bool) (xs : List α) :
    (Retrieval.deduplicateArray xs equal).Pairwise (fun a b => equal a b = false) :=
  dedupGo_pairwise equal xs [] (List.Pairwise.nil)

theorem deduplicateArray_sublist {α : Type} (equal : α → α → Bool) (xs : List α) :
    (Retrieval.deduplicateArray xs equal).Sublist xs := by
  obtain ⟨t, ht, hsub⟩ := dedupGo_eq_append equal xs []
  rw [Retrieval.deduplicateArray, ht]
  simpa using hsub

theorem deduplicateArray_idem {α : Type} (equal : α → α → Bool) (xs : List α) :
    Retrieval.deduplicateArray (Retrieval.deduplicateArray xs equal) equal =
      Retrieval.deduplicateArray xs equal := by
  have h := deduplicateArray_pairwise equal xs
  have := dedupGo_of_pairwise equal (Retrieval.deduplicateArray xs equal) [] (by simpa using h)
  simpa [Retrieval.deduplicateArray] using this

/-- C8: deduplicating an already-deduplicated chunk sequence (duplicate key:
`filepath`, `startLine`, `endLine` all equal) returns the same sequence
unchanged, for every sequence of chunks. -/
theorem deduplicateChunks_idempotent (chunks : List Chunk) :
    Retrieval.deduplicateChunks (Retrieval.deduplicateChunks chunks) =
      Retrieval.deduplicateChunks chunks :=
  deduplicateArray_idem chunkDupEq chunks

/-- C10: for every input array and every binary predicate `equal` (not assumed
to be an equivalence relation), `deduplicateArray` returns a subsequence of the
input in first-seen order; every input element is either kept or matched by
some kept element; and no two distinct kept positions satisfy the predicate --
in particular `equal output[i] output[j] = false` whenever `i < j`. -/
theorem deduplicateArray_spec {α : Type} (equal : α → α → Bool) (xs : List α) :
    (Retrieval.deduplicateArray xs equal).Sublist xs ∧
      (Retrieval.deduplicateArray xs equal).Pairwise (fun a b => equal a b = false) ∧
      ∀ x ∈ xs, x ∈ Retrieval.deduplicateArray xs equal ∨
        ∃ e ∈ Retrieval.deduplicateArray xs equal, equal e x = true :=
  ⟨deduplicateArray_sublist equal xs, deduplicateArray_pairwise equal xs,
    fun x hx => dedupGo_cover equal xs [] x hx⟩

/-! ### `Retrieval.retrieveGit` (SqliteDb.ts lines 158-208)

The TF-IDF engine is abstracted as a parameter
`search : List String → String → List ℚ` (documents added with
`addDocuments`, then queried); the source-control collaborator as
`getChangeByHash`. `scoreMapFrom` is the index-aware map of line 169
(`results.map((score, index) => score > threshold ? index : -1)`), with the
running index made explicit; `passingIndexes` adds the filter of line 170;
`sortByScoreDesc` is the stable sort of line 171 with comparator
`(a, b) => results[b] - results[a]`, i.e. descending by `scoreAt results`. -/

def scoreMapFrom (threshold : ℚ) (i : Nat) : List ℚ → List Int
  | [] => []
  | score :: rest =>
    (if threshold < score then (i : Int) else -1) :: scoreMapFrom threshold (i + 1) rest

def passingIndexes (results : List ℚ) (threshold : ℚ) : List Int :=
  (scoreMapFrom threshold 0 results).filter (fun index => index ≠ -1)

/-- `results[i]` as read by the sort comparator of line 171. -/
def scoreAt (results : List ℚ) (i : Int) : ℚ :=
  results.getD i.toNat 0

/-- Stable insertion of `x` into a list sorted by descending `key`: `x` goes
after every element whose key is ≥ its own, as a stable ECMAScript 2019 sort
with comparator `(a, b) => key b - key a` would place it. -/
def insertDesc (key : Int → ℚ) (x : Int) : List Int → List Int
  | [] => [x]
  | y :: ys => if key x ≤ key y then y :: insertDesc key x ys else x :: y :: ys

def sortByScoreDesc (key : Int → ℚ) (l : List Int) : List Int :=
  l.foldl (fun acc x => insertDesc key x acc) []

/-- Lines 168-171: map scores to passing indexes, filter out `-1`, sort by
descending score. -/
def sortIndexes (results : List ℚ) (threshold : ℚ) : List Int :=
  sortByScoreDesc (scoreAt results) (passingIndexes results threshold)

/-- The chunk built at lines 194-202 for one commit. -/
def mkGitChunk (commit : Commit) (changes : String) : Chunk :=
  { language := "", digest := commit.hash, filepath := commit.hash,
    content := changes, startLine := 0, endLine := 0, index := 0 }


/-- The read `commits[index]` of line 187; the loop only reaches it with a
valid non-negative index, so the total `getD` never actually falls back to
its default. -/
def commitAt (commits : List Commit) (index : Int) : Commit :=
  commits.getD index.toNat default

/-- The body of the loop of lines 181-205 for one index: `continue` on `-1`
(line 183), fetch the diff, `continue` on an empty diff (line 190), otherwise
emit the chunk of lines 194-202. -/
def gitChunkOf (commits : List Commit) (getChangeByHash : String → String) (index : Int) :
    Option Chunk :=
  if index = -1 then none
  else
    let commit := commitAt commits index
    let changes := getChangeByHash commit.hash
    if changes = "" then none
    else some (mkGitChunk commit changes)

/-- The loop of lines 181-205: the chunks pushed, in index order. -/
def mkChunks (commits : List Commit) (getChangeByHash : String → String)
    (indexes : List Int) : List Chunk :=
  indexes.filterMap (gitChunkOf commits getChangeByHash)

/-- Lines 158-208 with a successful `getHistoryCommits` result passed in as
`commits` (the fallible version is `Retrieval.retrieveGitE` below). -/
def Retrieval.retrieveGit (commits : List Commit) (search : List String → String → List ℚ)
    (getChangeByHash : String → String) (query : String) (n : Nat) (threshold : ℚ) :
    List Chunk :=
  let commitMessages := commits.map (fun commit => commit.message)
  let results := search commitMessages query
  let indexes := sortIndexes results threshold
  if indexes.length = 0 then []
  else mkChunks commits getChangeByHash (indexes.take n)

theorem mem_scoreMapFrom (threshold : ℚ) :
    ∀ (results : List ℚ) (i : Nat) (m : Int),
      m ∈ scoreMapFrom threshold i results ↔
        ∃ k : Nat, k < results.length ∧
          m = (if threshold < results.getD k 0 then ((i + k : Nat) : Int) else -1) := by
  intro results
  induction results with
  | nil =>
    intro i m
    simp [scoreMapFrom]
  | cons score rest ih =>
    intro i m
    rw [scoreMapFrom, List.mem_cons, ih (i + 1) m]
    constructor
    · rintro (hm | ⟨k, hk, hmk⟩)
      · refine ⟨0, by simp only [List.length_cons]; omega, ?_⟩
        simpa [List.getD_cons_zero] using hm
      · refine ⟨k + 1, by simp only [List.length_cons] at hk ⊢; omega, ?_⟩
        rw [List.getD_cons_succ]
        rw [hmk]
        have : i + 1 + k = i + (k + 1) := by omega
        rw [this]
    · rintro ⟨k, hk, hmk⟩
      cases k with
      | zero =>
        refine Or.inl ?_
        simpa [List.getD_cons_zero] using hmk
      | succ k' =>
        refine Or.inr ⟨k', by simp only [List.length_cons] at hk; omega, ?_⟩
        rw [List.getD_cons_succ] at hmk
        rw [hmk]
        have : i + 1 + k' = i + (k' + 1) := by omega
        rw [this]

theorem mem_passingIndexes_iff (results : List ℚ) (threshold : ℚ) (m : Int) :
    m ∈ passingIndexes results threshold ↔
      ∃ k : Nat, k < results.length ∧ m = (k : Int) ∧ threshold < results.getD k 0 := by
  rw [passingIndexes, List.mem_filter, mem_scoreMapFrom]
  constructor
  · rintro ⟨⟨k, hk, hmk⟩, hne⟩
    by_cases hs : threshold < results.getD k 0
    · rw [if_pos hs] at hmk
      exact ⟨k, hk, by omega, hs⟩
    · rw [if_neg hs] at hmk
      subst hmk
      simp at hne
  · rintro ⟨k, hk, hmk, hs⟩
    refine ⟨⟨k, hk, by rw [if_pos hs]; omega⟩, ?_⟩
    simp only [decide_eq_true_eq]
    omega

theorem mem_passingIndexes (results : List ℚ) (threshold : ℚ) (k : Nat) :
    ((k : Int) ∈ passingIndexes results threshold) ↔
      k < results.length ∧ threshold < results.getD k 0 := by
  rw [mem_passingIndexes_iff]
  constructor
  · rintro ⟨k', hk', hmk, hs⟩
    have : k = k' := by omega
    subst this
    exact ⟨hk', hs⟩
  · rintro ⟨hk, hs⟩
    exact ⟨k, hk, rfl, hs⟩

theorem passingIndexes_nonneg (results : List ℚ) (threshold : ℚ) (m : Int)
    (hm : m ∈ passingIndexes results threshold) : 0 ≤ m := by
  rw [mem_passingIndexes_iff] at hm
  obtain ⟨k, _, hmk, _⟩ := hm
  omega

theorem passingIndexes_ascending (threshold : ℚ) :
    ∀ (results : List ℚ) (i : Nat),
      ((scoreMapFrom threshold i results).filter (fun index => index ≠ -1)).Pairwise
          (fun a b => a < b) ∧
        ∀ m ∈ (scoreMapFrom threshold i results).filter (fun index => index ≠ -1),
          (i : Int) ≤ m := by
  intro results
  induction results with
  | nil =>
    intro i
    simp [scoreMapFrom]
  | cons score rest ih =>
    intro i
    rw [scoreMapFrom, List.filter_cons]
    by_cases hs : threshold < score
    · rw [if_pos hs]
      have hcond : (decide (((i : Nat) : Int) ≠ -1)) = true := by
        simp only [decide_eq_true_eq]
        omega
      rw [if_pos hcond]
      obtain ⟨hpair, hbound⟩ := ih (i + 1)
      constructor
      · rw [List.pairwise_cons]
        exact ⟨fun b hb => by have := hbound b hb; omega, hpair⟩
      · intro m hm
        rcases List.mem_cons.mp hm with hm0 | hm1
        · omega
        · have := hbound m hm1
          omega
    · rw [if_neg hs]
      have hcond : ¬((decide ((-1 : Int) ≠ -1)) = true) := by simp
      rw [if_neg hcond]
      obtain ⟨hpair, hbound⟩ := ih (i + 1)
      exact ⟨hpair, fun m hm => by have := hbound m hm; omega⟩

theorem passingIndexes_pairwise_lt (results : List ℚ) (threshold : ℚ) :
    (passingIndexes results threshold).Pairwise (fun a b => a < b) :=
  (passingIndexes_ascending threshold results 0).1

theorem insertDesc_perm (key : Int → ℚ) (x : Int) :
    ∀ l : List Int, (insertDesc key x l).Perm (x :: l) := by
  intro l
  induction l with
  | nil => rfl
  | cons y ys ih =>
    by_cases h : key x ≤ key y
    · rw [insertDesc, if_pos h]
      exact (ih.cons y).trans (List.Perm.swap x y ys)
    · rw [insertDesc, if_neg h]

theorem mem_insertDesc (key : Int → ℚ) (x : Int) (l : List Int) (m : Int) :
    m ∈ insertDesc key x l ↔ m = x ∨ m ∈ l := by
  rw [(insertDesc_perm key x l).mem_iff, List.mem_cons]

theorem sortByScoreDesc_go_perm (key : Int → ℚ) :
    ∀ (l acc : List Int), (l.foldl (fun acc x => insertDesc key x acc) acc).Perm (acc ++ l) := by
  intro l
  induction l with
  | nil => intro acc; simp
  | cons x xs ih =>
    intro acc
    rw [List.foldl_cons]
    exact (ih (insertDesc key x acc)).trans
      (((insertDesc_perm key x acc).append_right xs).trans List.perm_middle.symm)

theorem sortByScoreDesc_perm (key : Int → ℚ) (l : List Int) :
    (sortByScoreDesc key l).Perm l := by
  simpa using sortByScoreDesc_go_perm key l []

/-- The invariant a stable descending sort maintains over a strictly
ascending input: keys are non-increasing along the output, and elements with
equal keys stay in ascending (original) order. -/
def SortedStable (key : Int → ℚ) (l : List Int) : Prop :=
  l.Pairwise (fun a b => key b ≤ key a ∧ (key a = key b → a < b))

theorem insertDesc_sortedStable (key : Int → ℚ) (x : Int) :
    ∀ acc : List Int, SortedStable key acc → (∀ y ∈ acc, y < x) →
      SortedStable key (insertDesc key x acc) := by
  intro acc
  induction acc with
  | nil =>
    intro _ _
    exact List.pairwise_singleton _ x
  | cons y ys ih =>
    intro hs hlt
    rw [SortedStable, List.pairwise_cons] at hs
    obtain ⟨hy, hys⟩ := hs
    by_cases h : key x ≤ key y
    · rw [insertDesc, if_pos h]
      rw [SortedStable, List.pairwise_cons]
      constructor
      · intro b hb
        rcases (mem_insertDesc key x ys b).mp hb with hbx | hbs
        · subst hbx
          exact ⟨h, fun _ => hlt y (List.mem_cons_self y ys)⟩
        · exact hy b hbs
      · exact ih hys (fun z hz => hlt z (List.mem_cons_of_mem y hz))
    · rw [insertDesc, if_neg h]
      rw [SortedStable, List.pairwise_cons]
      constructor
      · intro b hb
        rcases List.mem_cons.mp hb with hby | hbs
        · subst hby
          constructor
          · linarith [lt_of_not_le h]
          · intro he
            exact absurd (le_of_eq he) h
        · have hyb := hy b hbs
          constructor
          · linarith [lt_of_not_le h, hyb.1]
          · intro he
            have : key b < key x := lt_of_le_of_lt hyb.1 (lt_of_not_le h)
            exact absurd he (by linarith)
      · exact List.Pairwise.cons hy hys

theorem sortByScoreDesc_go_sortedStable (key : Int → ℚ) :
    ∀ (l acc : List Int), SortedStable key acc → (∀ y ∈ acc, ∀ z ∈ l, y < z) →
      l.Pairwise (fun a b => a < b) →
      SortedStable key (l.foldl (fun acc x => insertDesc key x acc) acc) := by
  intro l
  induction l with
  | nil => intro acc hs _ _; exact hs
  | cons x xs ih =>
    intro acc hs hlt hasc
    rw [List.pairwise_cons] at hasc
    obtain ⟨hx, hxs⟩ := hasc
    rw [List.foldl_cons]
    refine ih (insertDesc key x acc) ?_ ?_ hxs
    · exact insertDesc_sortedStable key x acc hs
        (fun y hy => hlt y hy x (List.mem_cons_self x xs))
    · intro y hy z hz
      rcases (mem_insertDesc key x acc y).mp hy with hyx | hya
      · subst hyx
        exact hx z hz
      · exact hlt y hya z (List.mem_cons_of_mem x hz)

theorem sortIndexes_sortedStable (results : List ℚ) (threshold : ℚ) :
    SortedStable (scoreAt results) (sortIndexes results threshold) :=
  sortByScoreDesc_go_sortedStable (scoreAt results) (passingIndexes results threshold) []
    List.Pairwise.nil (fun y hy => absurd hy (List.not_mem_nil y))
    (passingIndexes_pairwise_lt results threshold)

theorem mem_sortIndexes (results : List ℚ) (threshold : ℚ) (m : Int) :
    m ∈ sortIndexes results threshold ↔ m ∈ passingIndexes results threshold :=
  (sortByScoreDesc_perm (scoreAt results) (passingIndexes results threshold)).mem_iff


theorem retrieveGit_eq_window (commits : List Commit) (search : List String → String → List ℚ)
    (getChangeByHash : String → String) (query : String) (n : Nat) (threshold : ℚ) :
    Retrieval.retrieveGit commits search getChangeByHash query n threshold =
      mkChunks commits getChangeByHash
        ((sortIndexes (search (commits.map (fun commit => commit.message)) query)
          threshold).take n) := by
  rw [Retrieval.retrieveGit]
  by_cases h :
      (sortIndexes (search (commits.map (fun commit => commit.message)) query)
        threshold).length = 0
  · rw [if_pos h]
    rw [List.length_eq_zero] at h
    rw [h, List.take_nil]
    rfl
  · rw [if_neg h]

theorem mem_retrieveGit (commits : List Commit) (search : List String → String → List ℚ)
    (getChangeByHash : String → String) (query : String) (n : Nat) (threshold : ℚ)
    (c : Chunk) (hc : c ∈ Retrieval.retrieveGit commits search getChangeByHash query n threshold) :
    ∃ m ∈ (sortIndexes (search (commits.map (fun commit => commit.message)) query)
        threshold).take n,
      gitChunkOf commits getChangeByHash m = some c := by
  rw [retrieveGit_eq_window, mkChunks, List.mem_filterMap] at hc
  exact hc

theorem gitChunkOf_eq_none (commits : List Commit) (getChangeByHash : String → String)
    (j : Int) (hj : j ≠ -1) (hc : getChangeByHash (commitAt commits j).hash = "") :
    gitChunkOf commits getChangeByHash j = none := by
  rw [gitChunkOf, if_neg hj]
  exact if_pos hc

theorem gitChunkOf_eq_some (commits : List Commit) (getChangeByHash : String → String)
    (j : Int) (hj : j ≠ -1) (hc : ¬getChangeByHash (commitAt commits j).hash = "") :
    gitChunkOf commits getChangeByHash j =
      some (mkGitChunk (commitAt commits j) (getChangeByHash (commitAt commits j).hash)) := by
  rw [gitChunkOf, if_neg hj]
  exact if_neg hc

theorem mkChunks_length (commits : List Commit) (getChangeByHash : String → String) :
    ∀ l : List Int, (∀ j ∈ l, j ≠ -1) →
      (mkChunks commits getChangeByHash l).length +
          l.countP (fun j => getChangeByHash (commitAt commits j).hash == "") =
        l.length := by
  intro l
  induction l with
  | nil => intro _; rfl
  | cons j rest ih =>
    intro hl
    have hj : j ≠ -1 := hl j (List.mem_cons_self j rest)
    have hrest := ih (fun i hi => hl i (List.mem_cons_of_mem j hi))
    rw [List.countP_cons, List.length_cons]
    by_cases hc : getChangeByHash (commitAt commits j).hash = ""
    · rw [mkChunks, List.filterMap_cons_none (gitChunkOf_eq_none commits getChangeByHash j hj hc)]
      rw [mkChunks] at hrest
      rw [show (getChangeByHash (commitAt commits j).hash == "") = true from by simp [hc]]
      rw [if_pos rfl]
      omega
    · rw [mkChunks, List.filterMap_cons_some (gitChunkOf_eq_some commits getChangeByHash j hj hc)]
      rw [mkChunks] at hrest
      rw [show (getChangeByHash (commitAt commits j).hash == "") = false from by simp [hc]]
      rw [if_neg Bool.false_ne_true, List.length_cons]
      omega

/-! ### The fallible version of `retrieveGit`, for error propagation

In the source both `git.getHistoryCommits()` (line 160) and
`git.getChangeByHash(...)` (line 188) are awaited promises; a rejection of
either rejects `retrieveGit` itself — there is no try/catch anywhere in
lines 158-208. The embedding returns `Except ε`, and a collaborator failure
is an `Except.error` that short-circuits the remaining computation exactly
where the rejection would. -/

def mkChunksE {ε : Type} (commits : List Commit) (getChangeByHash : String → Except ε String) :
    List Int → Except ε (List Chunk)
  | [] => .ok []
  | index :: rest =>
    if index = -1 then mkChunksE commits getChangeByHash rest
    else
      match getChangeByHash (commitAt commits index).hash with
      | .error e => .error e
      | .ok changes =>
        if changes = "" then mkChunksE commits getChangeByHash rest
        else
          match mkChunksE commits getChangeByHash rest with
          | .error e => .error e
          | .ok chunks => .ok (mkGitChunk (commitAt commits index) changes :: chunks)

def Retrieval.retrieveGitE {ε : Type} (getHistoryCommits : Except ε (List Commit))
    (search : List String → String → List ℚ) (getChangeByHash : String → Except ε String)
    (query : String) (n : Nat) (threshold : ℚ) : Except ε (List Chunk) :=
  match getHistoryCommits with
  | .error e => .error e
  | .ok commits =>
    let commitMessages := commits.map (fun commit => commit.message)
    let results := search commitMessages query
    let indexes := sortIndexes results threshold
    if indexes.length = 0 then .ok []
    else mkChunksE commits getChangeByHash (indexes.take n)

theorem mkChunksE_error {ε : Type} (commits : List Commit)
    (getChangeByHash : String → Except ε String) :
    ∀ l : List Int,
      (∃ i ∈ l, i ≠ -1 ∧ ∃ e, getChangeByHash (commitAt commits i).hash = .error e) →
      ∃ eo, mkChunksE commits getChangeByHash l = .error eo := by
  intro l
  induction l with
  | nil =>
    rintro ⟨i, hi, _⟩
    exact absurd hi (List.not_mem_nil i)
  | cons j rest ih =>
    rintro ⟨i, hi, hine, e, he⟩
    by_cases hj : j = -1
    · rw [mkChunksE, if_pos hj]
      refine ih ⟨i, ?_, hine, e, he⟩
      rcases List.mem_cons.mp hi with hij | hir
      · exact absurd (hij.trans hj) hine
      · exact hir
    · rcases hg : getChangeByHash (commitAt commits j).hash with eg | changes
      · refine ⟨eg, ?_⟩
        simp [mkChunksE, hj, hg]
      · have hir : i ∈ rest := by
          rcases List.mem_cons.mp hi with hij | hir
          · subst hij
            rw [hg] at he
            exact absurd he (by simp)
          · exact hir
        obtain ⟨eo, heo⟩ := ih ⟨i, hir, hine, e, he⟩
        by_cases hcc : changes = ""
        · refine ⟨eo, ?_⟩
          simp [mkChunksE, hj, hg, hcc, heo]
        · refine ⟨eo, ?_⟩
          simp [mkChunksE, hj, hg, hcc, heo]

/-! ### `Retrieval.retrieveFts` (SqliteDb.ts lines 210-231)

The external engine (`FullTextSearchCodebaseIndex.retrieve`, line 216) is a
fallible function parameter; `RETRIEVAL_PARAMS.bm25Threshold` (an imported
constant) is a parameter as well. The outcome records, besides the returned
chunks, the argument tuples of every engine invocation and the warnings
logged by the catch block (line 228), so that "returns early without
invoking the engine" and "catches, logs, returns empty" are statable. -/

/-- The argument tuple of the engine call at lines 216-224, in source order:
tags, query text, cap, directory filter, the literally-`undefined` file
filter, the bm25 score threshold, the language filter. -/
structure FtsCall where
  tags : List String
  text : String
  n : Nat
  filterDirectory : Option String
  fileFilter : Option String
  bm25Threshold : ℚ
  language : Option String
deriving DecidableEq, Repr

structure FtsOutcome where
  chunks : List Chunk
  calls : List FtsCall
  warnings : List String
deriving DecidableEq, Repr

/-- `String.prototype.trim`: strip leading and trailing whitespace. Written
by structural recursion over the character list so that concrete instances
reduce. -/
def jsTrim (s : String) : String :=
  String.mk (((s.data.dropWhile Char.isWhitespace).reverse.dropWhile
    Char.isWhitespace).reverse)

/-- `String.prototype.split(sep)` for a single separator character: every
occurrence of `sep` separates two (possibly empty) pieces. -/
def splitCharsWhen (p : Char → Bool) : List Char → List (List Char)
  | [] => [[]]
  | c :: rest =>
    let r := splitCharsWhen p rest
    if p c then [] :: r
    else
      match r with
      | [] => [[c]]
      | piece :: pieces => (c :: piece) :: pieces

def jsSplitOn (sep : Char) (s : String) : List String :=
  (splitCharsWhen (fun c => c == sep) s.data).map (fun piece => String.mk piece)

/-- `Array.prototype.join(" OR ")`. -/
def joinWithOr : List String → String
  | [] => ""
  | [s] => s
  | s :: rest => s ++ " OR " ++ joinWithOr rest

/-- Line 218: `term.query.trim().split(" ").map((element) => quoted).join(" OR ")`. -/
def ftsQueryString (query : String) : String :=
  joinWithOr
    ((jsSplitOn ' ' (jsTrim query)).map (fun element => "\"" ++ element ++ "\""))

def mkFtsCall (bm25Threshold : ℚ) (term : RetrievalQueryTerm) : FtsCall :=
  { tags := term.tags, text := ftsQueryString term.query, n := term.n,
    filterDirectory := term.filterDirectory, fileFilter := none,
    bm25Threshold := bm25Threshold, language := term.language }

def Retrieval.retrieveFts (engine : FtsCall → Except String (List Chunk))
    (bm25Threshold : ℚ) (term : RetrievalQueryTerm) : FtsOutcome :=
  if jsTrim term.query ≠ "" then
    match engine (mkFtsCall bm25Threshold term) with
    | .ok ftsResults => ⟨ftsResults, [mkFtsCall bm25Threshold term], []⟩
    | .error e =>
      ⟨[], [mkFtsCall bm25Threshold term], ["Error retrieving from FTS: " ++ e]⟩
  else ⟨[], [], []⟩

/-- Reading of the spec sentence "each whitespace-separated token is quoted
and the tokens are joined with OR": the (non-empty) tokens obtained by
splitting the trimmed query at every whitespace character, each wrapped in
double quotes, joined with " OR ". Stated from the spec wording for
comparison with `ftsQueryString`, which is translated from the source. -/
def specWhitespaceTokensQuery (query : String) : String :=
  joinWithOr
    ((((splitCharsWhen Char.isWhitespace (jsTrim query).data).map
        (fun piece => String.mk piece)).filter (fun token => token ≠ "")).map
      (fun token => "\"" ++ token ++ "\""))

/-! ### `SqliteDb.get` (SqliteDb.ts lines 43-57)

The static cache cell `SqliteDb.db` / `SqliteDb.indexSqlitePath` is explicit
state; `fs.existsSync` and the fresh handle produced by `sqlite.open` are
parameters; `getIndexSqlitePath()` as re-read at line 48 is the parameter
`currentIndexPath`. Handles are identified by a `Nat` id, so "returns the
same handle instance" is handle-id equality. Table creation (`createTables`,
lines 17-39) runs two `CREATE TABLE IF NOT EXISTS` statements; it is
modelled on the set of existing table names of the opened store. -/

structure SqliteDbState where
  db : Option Nat
  indexSqlitePath : String
deriving DecidableEq, Repr

/-- `CREATE TABLE IF NOT EXISTS name`: a no-op when the table exists. -/
def createTableIfNotExists (tables : List String) (name : String) : List String :=
  if name ∈ tables then tables else tables ++ [name]

/-- `SqliteDb.createTables` (lines 17-39): create `tag_catalog`, then
`global_cache`, each with IF NOT EXISTS semantics. -/
def SqliteDb.createTables (tables : List String) : List String :=
  createTableIfNotExists (createTableIfNotExists tables "tag_catalog") "global_cache"

structure GetOutcome where
  handle : Nat
  state : SqliteDbState
  opened : List String
  tables : List String
deriving DecidableEq, Repr

/-- `SqliteDb.get` (lines 43-57). `fileExists` is `fs.existsSync`;
`currentIndexPath` is the value `getIndexSqlitePath()` returns at line 48;
`freshHandle` is the handle `sqlite.open` would produce at line 49; `tables`
is the set of table names existing in the store being opened; `opened`
records the filenames passed to `sqlite.open` during this call. -/
def SqliteDb.get (fileExists : String → Bool) (currentIndexPath : String)
    (freshHandle : Nat) (tables : List String) (s : SqliteDbState) : GetOutcome :=
  match s.db with
  | some h =>
    if fileExists s.indexSqlitePath then
      { handle := h, state := s, opened := [], tables := tables }
    else
      { handle := freshHandle,
        state := { db := some freshHandle, indexSqlitePath := currentIndexPath },
        opened := [currentIndexPath], tables := SqliteDb.createTables tables }
  | none =>
    { handle := freshHandle,
      state := { db := some freshHandle, indexSqlitePath := currentIndexPath },
      opened := [currentIndexPath], tables := SqliteDb.createTables tables }

theorem mem_self_createTableIfNotExists (tables : List String) (name : String) :
    name ∈ createTableIfNotExists tables name := by
  rw [createTableIfNotExists]
  split
  · assumption
  · simp

theorem mem_createTableIfNotExists (tables : List String) (name x : String)
    (h : x ∈ tables) : x ∈ createTableIfNotExists tables name := by
  rw [createTableIfNotExists]
  split
  · exact h
  · exact List.mem_append_left _ h

theorem createTableIfNotExists_of_mem (tables : List String) (name : String)
    (h : name ∈ tables) : createTableIfNotExists tables name = tables := by
  rw [createTableIfNotExists, if_pos h]

theorem mem_createTables (tables : List String) :
    "tag_catalog" ∈ SqliteDb.createTables tables ∧
      "global_cache" ∈ SqliteDb.createTables tables := by
  constructor
  · exact mem_createTableIfNotExists _ _ _ (mem_self_createTableIfNotExists _ _)
  · exact mem_self_createTableIfNotExists _ _

theorem createTables_idem (tables : List String) :
    SqliteDb.createTables (SqliteDb.createTables tables) = SqliteDb.createTables tables := by
  obtain ⟨h1, h2⟩ := mem_createTables tables
  rw [SqliteDb.createTables, createTableIfNotExists_of_mem _ _ h1,
    createTableIfNotExists_of_mem _ _ h2]

/-! ### Claim theorems -/

/-- C1: for every list of commits, every query string and every threshold
`t`, the index-selection step of `retrieveGit` keeps exactly those commit
indices whose TF-IDF score is strictly greater than `t`, and every chunk
`retrieveGit` returns comes from a commit whose score is strictly greater
than `t` — in particular never from one whose score equals `t` exactly. -/
theorem retrieveGit_threshold_strict (commits : List Commit)
    (search : List String → String → List ℚ) (getChangeByHash : String → String)
    (query : String) (n : Nat) (threshold : ℚ) :
    (∀ k : Nat,
        ((k : Int) ∈ passingIndexes
            (search (commits.map (fun commit => commit.message)) query) threshold ↔
          k < (search (commits.map (fun commit => commit.message)) query).length ∧
            threshold <
              (search (commits.map (fun commit => commit.message)) query).getD k 0)) ∧
    ∀ c ∈ Retrieval.retrieveGit commits search getChangeByHash query n threshold,
      ∃ k : Nat,
        k < (search (commits.map (fun commit => commit.message)) query).length ∧
        threshold < (search (commits.map (fun commit => commit.message)) query).getD k 0 ∧
        (search (commits.map (fun commit => commit.message)) query).getD k 0 ≠ threshold ∧
        c = mkGitChunk (commitAt commits (k : Int))
          (getChangeByHash (commitAt commits (k : Int)).hash) := by
  constructor
  · intro k
    exact mem_passingIndexes _ threshold k
  · intro c hc
    obtain ⟨m, hm, hsome⟩ :=
      mem_retrieveGit commits search getChangeByHash query n threshold c hc
    have hmem : m ∈ passingIndexes
        (search (commits.map (fun commit => commit.message)) query) threshold :=
      (mem_sortIndexes _ _ m).mp (List.mem_of_mem_take hm)
    obtain ⟨k, hk, hmk, hs⟩ := (mem_passingIndexes_iff _ _ m).mp hmem
    subst hmk
    refine ⟨k, hk, hs, ne_of_gt hs, ?_⟩
    rw [gitChunkOf, if_neg (by omega : ¬(k : Int) = -1)] at hsome
    by_cases hcc : getChangeByHash (commitAt commits (k : Int)).hash = ""
    · rw [if_pos hcc] at hsome
      exact absurd hsome (by simp)
    · rw [if_neg hcc] at hsome
      exact (Option.some_inj.mp hsome).symm

/-- C1 witness: concrete instantiation with scores `[0, 2]` and threshold
`1`: index 1 (score 2 > 1) passes, index 0 (score 0) does not; the single
returned chunk is the one of commit "b". -/
theorem retrieveGit_threshold_strict_witness :
    ((1 : Int) ∈ passingIndexes [(0 : ℚ), 2] 1) ∧
      ¬((0 : Int) ∈ passingIndexes [(0 : ℚ), 2] 1) := by
  have h := (retrieveGit_threshold_strict [⟨"a", "m1"⟩, ⟨"b", "m2"⟩]
    (fun _ _ => [(0 : ℚ), 2]) (fun _ => "d") "q" 5 1).1
  constructor
  · exact (h 1).mpr (by decide)
  · intro hmem
    have := (h 0).mp hmem
    exact absurd this.2 (by decide)

/-- C2: in `retrieveGit` the surviving commit indices are sorted by
descending TF-IDF score before the truncation to `term.n` (the returned
chunks are built from `(sortIndexes ...).take n`), and any two surviving
indices with equal scores appear in their original ascending index order. -/
theorem retrieveGit_sorted_stable (commits : List Commit)
    (search : List String → String → List ℚ) (getChangeByHash : String → String)
    (query : String) (n : Nat) (threshold : ℚ) :
    (sortIndexes (search (commits.map (fun commit => commit.message)) query)
        threshold).Pairwise (fun a b =>
          scoreAt (search (commits.map (fun commit => commit.message)) query) b ≤
            scoreAt (search (commits.map (fun commit => commit.message)) query) a) ∧
    (sortIndexes (search (commits.map (fun commit => commit.message)) query)
        threshold).Pairwise (fun a b =>
          scoreAt (search (commits.map (fun commit => commit.message)) query) a =
              scoreAt (search (commits.map (fun commit => commit.message)) query) b →
            a < b) ∧
    Retrieval.retrieveGit commits search getChangeByHash query n threshold =
      mkChunks commits getChangeByHash
        ((sortIndexes (search (commits.map (fun commit => commit.message)) query)
          threshold).take n) := by
  have h := sortIndexes_sortedStable
    (search (commits.map (fun commit => commit.message)) query) threshold
  rw [SortedStable] at h
  exact ⟨h.imp (fun hab => hab.1), h.imp (fun hab => hab.2),
    retrieveGit_eq_window commits search getChangeByHash query n threshold⟩

/-- C2 witness: with scores `[1, 1, 0, 1]` and threshold `0`, the three
passing indices all tie at score 1 and come out in ascending order
`[0, 1, 3]`; the tie-order part of the claim theorem is instantiated on this
input. -/
theorem retrieveGit_sorted_stable_witness :
    (sortIndexes [(1 : ℚ), 1, 0, 1] 0).Pairwise (fun a b =>
        scoreAt [(1 : ℚ), 1, 0, 1] a = scoreAt [(1 : ℚ), 1, 0, 1] b → a < b) ∧
      sortIndexes [(1 : ℚ), 1, 0, 1] 0 = [0, 1, 3] := by
  have h := retrieveGit_sorted_stable
    [⟨"a", "m1"⟩, ⟨"b", "m2"⟩, ⟨"c", "m3"⟩, ⟨"d", "m4"⟩]
    (fun _ _ => [(1 : ℚ), 1, 0, 1]) (fun _ => "d") "q" 4 0
  exact ⟨h.2.1, by decide⟩

theorem mem_window_ne_neg_one (results : List ℚ) (threshold : ℚ) (n : Nat) (j : Int)
    (hj : j ∈ (sortIndexes results threshold).take n) : j ≠ -1 := by
  have := passingIndexes_nonneg results threshold j
    ((mem_sortIndexes results threshold j).mp (List.mem_of_mem_take hj))
  omega

/-- C3: if a commit at a passing index inside the cap window
`(sortIndexes ...).take n` has an empty diff, no chunk for it is emitted and
the chunk count drops by one for each such commit; the output never draws an
index from beyond the cap window, so the result may hold fewer than `n`
chunks. -/
theorem retrieveGit_empty_diff_skip (commits : List Commit)
    (search : List String → String → List ℚ) (getChangeByHash : String → String)
    (query : String) (n : Nat) (threshold : ℚ) (i : Int)
    (hi : i ∈ (sortIndexes (search (commits.map (fun commit => commit.message)) query)
        threshold).take n)
    (hempty : getChangeByHash (commitAt commits i).hash = "") :
    (Retrieval.retrieveGit commits search getChangeByHash query n threshold).length +
        ((sortIndexes (search (commits.map (fun commit => commit.message)) query)
            threshold).take n).countP
          (fun j => getChangeByHash (commitAt commits j).hash == "") =
      ((sortIndexes (search (commits.map (fun commit => commit.message)) query)
          threshold).take n).length ∧
    1 ≤ ((sortIndexes (search (commits.map (fun commit => commit.message)) query)
          threshold).take n).countP
        (fun j => getChangeByHash (commitAt commits j).hash == "") ∧
    (Retrieval.retrieveGit commits search getChangeByHash query n threshold).length <
      ((sortIndexes (search (commits.map (fun commit => commit.message)) query)
          threshold).take n).length ∧
    ((sortIndexes (search (commits.map (fun commit => commit.message)) query)
        threshold).take n).length ≤ n ∧
    ∀ c ∈ Retrieval.retrieveGit commits search getChangeByHash query n threshold,
      ∃ j ∈ (sortIndexes (search (commits.map (fun commit => commit.message)) query)
          threshold).take n,
        getChangeByHash (commitAt commits j).hash ≠ "" ∧
        c = mkGitChunk (commitAt commits j) (getChangeByHash (commitAt commits j).hash) := by
  have hlen := mkChunks_length commits getChangeByHash
    ((sortIndexes (search (commits.map (fun commit => commit.message)) query)
      threshold).take n)
    (fun j hj => mem_window_ne_neg_one _ _ _ j hj)
  rw [← retrieveGit_eq_window] at hlen
  have hpos : 1 ≤ ((sortIndexes (search (commits.map (fun commit => commit.message)) query)
        threshold).take n).countP
      (fun j => getChangeByHash (commitAt commits j).hash == "") := by
    rw [Nat.one_le_iff_ne_zero, Ne, ← Nat.le_zero, ← Nat.not_lt]
    intro hc
    exact hc (List.countP_pos_iff.mpr ⟨i, hi, by simp [hempty]⟩)
  refine ⟨hlen, hpos, by omega, List.length_take_le n _, ?_⟩
  intro c hc
  obtain ⟨j, hj, hsome⟩ :=
    mem_retrieveGit commits search getChangeByHash query n threshold c hc
  refine ⟨j, hj, ?_⟩
  rw [gitChunkOf, if_neg (mem_window_ne_neg_one _ _ _ j hj)] at hsome
  by_cases hcc : getChangeByHash (commitAt commits j).hash = ""
  · rw [if_pos hcc] at hsome
    exact absurd hsome (by simp)
  · rw [if_neg hcc] at hsome
    exact ⟨hcc, (Option.some_inj.mp hsome).symm⟩

/-- C3 witness: scores `[1, 2]`, threshold `0`, `n = 2`; the cap window is
`[1, 0]` and commit "b" (index 1) has an empty diff, so exactly one of the
two windowed commits yields a chunk. -/
theorem retrieveGit_empty_diff_skip_witness :
    (Retrieval.retrieveGit [⟨"a", "m1"⟩, ⟨"b", "m2"⟩] (fun _ _ => [(1 : ℚ), 2])
        (fun h => if h = "b" then "" else "diff") "q" 2 0).length <
      ((sortIndexes [(1 : ℚ), 2] 0).take 2).length := by
  have h := retrieveGit_empty_diff_skip [⟨"a", "m1"⟩, ⟨"b", "m2"⟩]
    (fun _ _ => [(1 : ℚ), 2]) (fun h => if h = "b" then "" else "diff") "q" 2 0 1
    (by decide) (by decide)
  exact h.2.2.1

/-- C7: every error raised by the source-control collaborator inside
`retrieveGit` propagates to the caller: a failing `getHistoryCommits`
rejects `retrieveGit` with the same error, and a failing `getChangeByHash`
for any index of the processed cap window makes `retrieveGit` reject as
well — the commit-history strategy never downgrades such a failure to an
empty (or any `ok`) result. -/
theorem retrieveGitE_failure_propagates {ε : Type}
    (getHistoryCommits : Except ε (List Commit))
    (search : List String → String → List ℚ) (getChangeByHash : String → Except ε String)
    (query : String) (n : Nat) (threshold : ℚ) :
    (∀ e, getHistoryCommits = .error e →
        Retrieval.retrieveGitE getHistoryCommits search getChangeByHash query n threshold =
          .error e) ∧
    ∀ commits, getHistoryCommits = .ok commits →
      ∀ i ∈ (sortIndexes (search (commits.map (fun commit => commit.message)) query)
          threshold).take n,
        (∃ e, getChangeByHash (commitAt commits i).hash = .error e) →
        ∃ eo, Retrieval.retrieveGitE getHistoryCommits search getChangeByHash query n
            threshold = .error eo := by
  constructor
  · intro e he
    rw [he]
    rfl
  · intro commits hok i hi he
    rw [hok]
    have hne : (sortIndexes (search (commits.map (fun commit => commit.message)) query)
        threshold).length ≠ 0 := by
      intro hnil
      rw [List.length_eq_zero] at hnil
      rw [hnil, List.take_nil] at hi
      exact absurd hi (List.not_mem_nil i)
    rw [Retrieval.retrieveGitE]
    rw [if_neg hne]
    exact mkChunksE_error commits getChangeByHash _
      ⟨i, hi, mem_window_ne_neg_one _ _ _ i hi, he⟩

/-- C7 witness: a rejected commit enumeration propagates its error "boom";
a rejected diff fetch for the single windowed commit makes the whole call
reject as well. -/
theorem retrieveGitE_failure_propagates_witness :
    Retrieval.retrieveGitE (Except.error "boom" : Except String (List Commit))
        (fun _ _ => []) (fun _ => .ok "") "q" 1 0 = .error "boom" ∧
      ∃ eo, Retrieval.retrieveGitE
          (Except.ok [⟨"a", "m"⟩] : Except String (List Commit))
          (fun _ _ => [(1 : ℚ)]) (fun _ => (.error "io" : Except String String)) "q" 1 0 =
        .error eo := by
  constructor
  · exact (retrieveGitE_failure_propagates (Except.error "boom")
      (fun _ _ => []) (fun _ => .ok "") "q" 1 0).1 "boom" rfl
  · exact (retrieveGitE_failure_propagates (Except.ok [⟨"a", "m"⟩])
      (fun _ _ => [(1 : ℚ)]) (fun _ => (.error "io" : Except String String)) "q" 1 0).2
      [⟨"a", "m"⟩] rfl 0 (by decide) ⟨"io", rfl⟩

/-- A concrete query term used by the witnesses below. -/
def sampleTerm (q : String) : RetrievalQueryTerm :=
  { query := q, tags := [], n := 3, filterDirectory := none, language := none }

/-- C4: `retrieveFts` is total (it returns an `FtsOutcome`, never an
exception), and whenever the engine collaborator raises, the error is caught
(lines 227-230): the chunk result is empty and a warning is logged. -/
theorem retrieveFts_fail_soft (engine : FtsCall → Except String (List Chunk))
    (bm25Threshold : ℚ) (term : RetrievalQueryTerm) (e : String)
    (hq : jsTrim term.query ≠ "")
    (he : engine (mkFtsCall bm25Threshold term) = .error e) :
    (Retrieval.retrieveFts engine bm25Threshold term).chunks = [] ∧
      (Retrieval.retrieveFts engine bm25Threshold term).warnings =
        ["Error retrieving from FTS: " ++ e] := by
  rw [Retrieval.retrieveFts, if_pos hq, he]
  exact ⟨rfl, rfl⟩

/-- C4 witness: an engine that always raises "down" yields no chunks and the
logged warning, on the query "fix". -/
theorem retrieveFts_fail_soft_witness :
    (Retrieval.retrieveFts (fun _ => .error "down") 0 (sampleTerm "fix")).chunks = [] ∧
      (Retrieval.retrieveFts (fun _ => .error "down") 0 (sampleTerm "fix")).warnings =
        ["Error retrieving from FTS: down"] :=
  retrieveFts_fail_soft (fun _ => .error "down") 0 (sampleTerm "fix") "down"
    (by decide) rfl

/-- C5: a query that trims to the empty string makes `retrieveFts` return
the empty outcome without invoking the engine at all (no recorded call). -/
theorem retrieveFts_empty_query (engine : FtsCall → Except String (List Chunk))
    (bm25Threshold : ℚ) (term : RetrievalQueryTerm)
    (h : jsTrim term.query = "") :
    Retrieval.retrieveFts engine bm25Threshold term =
      { chunks := [], calls := [], warnings := [] } := by
  rw [Retrieval.retrieveFts, if_neg (fun hne => hne h)]

/-- C5 witness: the query `"   "` trims to empty, so the outcome is empty
and records no engine call. -/
theorem retrieveFts_empty_query_witness :
    Retrieval.retrieveFts (fun _ => .ok []) 0 (sampleTerm "   ") =
      { chunks := [], calls := [], warnings := [] } :=
  retrieveFts_empty_query (fun _ => .ok []) 0 (sampleTerm "   ") (by decide)

/-- C6 counterexample: on the query "a<TAB>b" (a tab between the tokens,
non-empty after trimming) the engine is called with the single quoted token
containing the tab, whereas quoting the whitespace-separated tokens would
give two quoted tokens joined with OR: the code splits on single space
characters only, not on whitespace. -/
theorem retrieveFts_query_tokens_counterexample :
    (Retrieval.retrieveFts (fun _ => .ok []) 0 (sampleTerm "a\tb")).calls.map
        (fun call => call.text) = ["\"a\tb\""] ∧
      specWhitespaceTokensQuery "a\tb" = "\"a\" OR \"b\"" ∧
      ftsQueryString "a\tb" ≠ specWhitespaceTokensQuery "a\tb" := by
  refine ⟨?_, by decide, by decide⟩
  rw [Retrieval.retrieveFts, if_pos (by decide : jsTrim (sampleTerm "a\tb").query ≠ "")]
  rfl

/-- C6 as amended: for every query that is non-empty after trimming,
`retrieveFts` calls the engine exactly once, with the query string obtained
by splitting the trimmed input on single space characters (consecutive
spaces yield empty tokens and non-space whitespace does not split), wrapping
each piece in double quotes and joining with " OR ". -/
theorem retrieveFts_query_construction (engine : FtsCall → Except String (List Chunk))
    (bm25Threshold : ℚ) (term : RetrievalQueryTerm)
    (h : jsTrim term.query ≠ "") :
    (Retrieval.retrieveFts engine bm25Threshold term).calls =
        [mkFtsCall bm25Threshold term] ∧
      (mkFtsCall bm25Threshold term).text =
        joinWithOr ((jsSplitOn ' ' (jsTrim term.query)).map
          (fun element => "\"" ++ element ++ "\"")) := by
  refine ⟨?_, rfl⟩
  rw [Retrieval.retrieveFts, if_pos h]
  rcases engine (mkFtsCall bm25Threshold term) with e | cs <;> rfl

/-- C6 amended-claim witness: on the query "fix login" the engine receives
the single call text with both tokens quoted and joined with OR. -/
theorem retrieveFts_query_construction_witness :
    (Retrieval.retrieveFts (fun _ => .ok []) 0 (sampleTerm "fix login")).calls =
        [mkFtsCall 0 (sampleTerm "fix login")] ∧
      ftsQueryString "fix login" = "\"fix\" OR \"login\"" := by
  have h := retrieveFts_query_construction (fun _ => .ok []) 0
    (sampleTerm "fix login") (by decide)
  exact ⟨h.1, by decide⟩

/-- C9: when a handle is cached and the backing file still exists,
`SqliteDb.get` returns that same handle with no open and no table creation;
when the cache is empty or the file is gone, it re-opens the store at the
freshly computed path and (idempotently) re-creates both tables. -/
theorem sqliteDb_get_caching (fileExists : String → Bool) (currentIndexPath : String)
    (freshHandle : Nat) (tables : List String) (s : SqliteDbState) :
    (∀ h, s.db = some h → fileExists s.indexSqlitePath = true →
        SqliteDb.get fileExists currentIndexPath freshHandle tables s =
          { handle := h, state := s, opened := [], tables := tables }) ∧
    ((s.db = none ∨ fileExists s.indexSqlitePath = false) →
        SqliteDb.get fileExists currentIndexPath freshHandle tables s =
            { handle := freshHandle,
              state := { db := some freshHandle, indexSqlitePath := currentIndexPath },
              opened := [currentIndexPath],
              tables := SqliteDb.createTables tables } ∧
          SqliteDb.createTables (SqliteDb.createTables tables) =
            SqliteDb.createTables tables ∧
          "tag_catalog" ∈ SqliteDb.createTables tables ∧
          "global_cache" ∈ SqliteDb.createTables tables) := by
  constructor
  · intro h hdb hex
    rw [SqliteDb.get, hdb]
    exact if_pos hex
  · intro hmiss
    obtain ⟨htag, hglob⟩ := mem_createTables tables
    refine ⟨?_, createTables_idem tables, htag, hglob⟩
    rcases hmiss with hnone | hgone
    · rw [SqliteDb.get, hnone]
    · rw [SqliteDb.get]
      rcases hdb : s.db with _ | h
      · rfl
      · exact if_neg (by rw [hgone]; exact Bool.false_ne_true)

/-- C9 witness: with the cache holding handle 7 and the file present, `get`
returns 7 untouched; with the file absent, `get` opens handle 8 at the
current path and creates both tables. -/
theorem sqliteDb_get_caching_witness :
    SqliteDb.get (fun _ => true) "/idx/new.sqlite" 8 ["tag_catalog", "global_cache"]
        { db := some 7, indexSqlitePath := "/idx/old.sqlite" } =
      { handle := 7, state := { db := some 7, indexSqlitePath := "/idx/old.sqlite" },
        opened := [], tables := ["tag_catalog", "global_cache"] } ∧
    SqliteDb.get (fun _ => false) "/idx/new.sqlite" 8 []
        { db := some 7, indexSqlitePath := "/idx/old.sqlite" } =
      { handle := 8, state := { db := some 8, indexSqlitePath := "/idx/new.sqlite" },
        opened := ["/idx/new.sqlite"], tables := SqliteDb.createTables [] } := by
  constructor
  · exact (sqliteDb_get_caching (fun _ => true) "/idx/new.sqlite" 8
      ["tag_catalog", "global_cache"]
      { db := some 7, indexSqlitePath := "/idx/old.sqlite" }).1 7 rfl rfl
  · exact ((sqliteDb_get_caching (fun _ => false) "/idx/new.sqlite" 8 []
      { db := some 7, indexSqlitePath := "/idx/old.sqlite" }).2 (Or.inr rfl)).1

/-- C8 witness: a concrete two-chunk list (already duplicate-free) is
returned unchanged by a second deduplication. -/
theorem deduplicateChunks_idempotent_witness :
    Retrieval.deduplicateChunks (Retrieval.deduplicateChunks
        [{ language := "", digest := "a", filepath := "f", content := "x",
           startLine := 0, endLine := 3, index := 0 },
         { language := "", digest := "b", filepath := "f", content := "y",
           startLine := 0, endLine := 3, index := 0 },
         { language := "", digest := "c", filepath := "g", content := "z",
           startLine := 1, endLine := 2, index := 0 }]) =
      Retrieval.deduplicateChunks
        [{ language := "", digest := "a", filepath := "f", content := "x",
           startLine := 0, endLine := 3, index := 0 },
         { language := "", digest := "b", filepath := "f", content := "y",
           startLine := 0, endLine := 3, index := 0 },
         { language := "", digest := "c", filepath := "g", content := "z",
           startLine := 1, endLine := 2, index := 0 }] :=
  deduplicateChunks_idempotent _

/-- C10 witness: on `[1, 1, 2]` with boolean equality, the kept elements
form a subsequence with no equal pair, namely `[1, 2]`. -/
theorem deduplicateArray_spec_witness :
    (Retrieval.deduplicateArray [1, 1, 2] (fun a b => a == b)).Sublist [1, 1, 2] ∧
      Retrieval.deduplicateArray [1, 1, 2] (fun a b => a == b) = [1, 2] := by
  have h := deduplicateArray_spec (fun (a b : Nat) => a == b) [1, 1, 2]
  exact ⟨h.1, by decide⟩
